import Mathlib

/-!
Verification development for the fujielab-moshi-client duplex audio
reframing and flow-control core.  The client library itself
(`fujielab.moshi.moshi_client_lib`) is exercised by the example programs
and test scripts in the repository; its buffering core is specified in
`spec.md` and is modelled here as a shallow embedding: pure Lean
functions over lists of samples, with explicit state passing for the
stateful components (FrameAccumulator, FrameAssembler, connection
lifecycle).
-/

/-- The fixed protocol frame size: 1920 samples at 24 kHz (80 ms).
Mirrors `MOSHI_CHUNK_SIZE` / `PROTOCOL_FRAME_SIZE`. -/
def PROTOCOL_FRAME_SIZE : Nat := 1920

/-- Modelled from the spec: the frame-slicing core of
`FrameAccumulator.push` (the input path of `add_audio_input`, which is
not under `src/`).  Repeatedly slices leading `PROTOCOL_FRAME_SIZE`-length
groups off the buffer as complete frames until fewer than
`PROTOCOL_FRAME_SIZE` samples remain; returns the emitted frames in
arrival order together with the retained remainder. -/
def sliceFrames {α : Type} (buf : List α) : List (List α) × List α :=
  if h : PROTOCOL_FRAME_SIZE ≤ buf.length then
    let p := sliceFrames (buf.drop PROTOCOL_FRAME_SIZE)
    (buf.take PROTOCOL_FRAME_SIZE :: p.1, p.2)
  else
    ([], buf)
termination_by buf.length
decreasing_by
  simp only [List.length_drop, PROTOCOL_FRAME_SIZE] at *
  omega

/-- The emitted frames joined back together, followed by the retained
remainder, reconstitute the original buffer exactly. -/
theorem sliceFrames_join {α : Type} (buf : List α) :
    (sliceFrames buf).1.flatten ++ (sliceFrames buf).2 = buf := by
  induction buf using sliceFrames.induct with
  | case1 buf h ih =>
    rw [sliceFrames, dif_pos h]
    simp only [List.flatten_cons, List.append_assoc]
    rw [ih]
    exact List.take_append_drop _ _
  | case2 buf h =>
    rw [sliceFrames, dif_neg h]
    simp

/-- Every frame emitted by `sliceFrames` has length exactly
`PROTOCOL_FRAME_SIZE`. -/
theorem sliceFrames_frame_len {α : Type} (buf : List α) :
    ∀ f ∈ (sliceFrames buf).1, f.length = PROTOCOL_FRAME_SIZE := by
  induction buf using sliceFrames.induct with
  | case1 buf h ih =>
    rw [sliceFrames, dif_pos h]
    intro f hf
    rcases List.mem_cons.mp hf with hf | hf
    · subst hf
      exact List.length_take_of_le h
    · exact ih f hf
  | case2 buf h =>
    rw [sliceFrames, dif_neg h]
    intro f hf
    simp at hf

/-- The retained remainder has length `buf.length % PROTOCOL_FRAME_SIZE`. -/
theorem sliceFrames_rem_len {α : Type} (buf : List α) :
    (sliceFrames buf).2.length = buf.length % PROTOCOL_FRAME_SIZE := by
  induction buf using sliceFrames.induct with
  | case1 buf h ih =>
    rw [sliceFrames, dif_pos h]
    simp only
    rw [ih, List.length_drop]
    rw [Nat.mod_eq_sub_mod h]
  | case2 buf h =>
    rw [sliceFrames, dif_neg h]
    have : buf.length < PROTOCOL_FRAME_SIZE := Nat.lt_of_not_le h
    exact (Nat.mod_eq_of_lt this).symm

/-- The number of emitted frames is `buf.length / PROTOCOL_FRAME_SIZE`. -/
theorem sliceFrames_count {α : Type} (buf : List α) :
    (sliceFrames buf).1.length = buf.length / PROTOCOL_FRAME_SIZE := by
  induction buf using sliceFrames.induct with
  | case1 buf h ih =>
    rw [sliceFrames, dif_pos h]
    simp only [List.length_cons]
    rw [ih, List.length_drop]
    have hpos : 0 < PROTOCOL_FRAME_SIZE := by decide
    rw [Nat.div_eq_sub_div hpos h]
  | case2 buf h =>
    rw [sliceFrames, dif_neg h]
    have : buf.length < PROTOCOL_FRAME_SIZE := Nat.lt_of_not_le h
    simp [Nat.div_eq_of_lt this]

/-- Modelled from the spec: the `FrameAccumulator` input-path component
(owned state is the `InputBuffer`, the unconsumed leftover samples). -/
structure FrameAccumulator (α : Type) where
  inputBuffer : List α

/-- Modelled from the spec: `FrameAccumulator.push` appends the incoming
samples to the InputBuffer, slices off complete frames, and retains the
remainder. -/
def FrameAccumulator.push {α : Type} (acc : FrameAccumulator α)
    (samples : List α) : List (List α) × FrameAccumulator α :=
  let p := sliceFrames (acc.inputBuffer ++ samples)
  (p.1, ⟨p.2⟩)

/-- Iterated `push` over a sequence of chunks, collecting all frames
emitted along the way. -/
def FrameAccumulator.pushAll {α : Type} (acc : FrameAccumulator α) :
    List (List α) → List (List α) × FrameAccumulator α
  | [] => ([], acc)
  | c :: cs =>
    let p := acc.push c
    let q := p.2.pushAll cs
    (p.1 ++ q.1, q.2)

/-- Conservation across an arbitrary sequence of pushes: all emitted
frames joined in order, followed by the final retained buffer, equal the
initial buffer followed by the concatenation of all pushed chunks. -/
theorem pushAll_join {α : Type} (chunks : List (List α))
    (acc : FrameAccumulator α) :
    (acc.pushAll chunks).1.flatten ++ (acc.pushAll chunks).2.inputBuffer
      = acc.inputBuffer ++ chunks.flatten := by
  induction chunks generalizing acc with
  | nil => simp [FrameAccumulator.pushAll]
  | cons c cs ih =>
    simp only [FrameAccumulator.pushAll, List.flatten_cons, List.flatten_append,
      List.append_assoc]
    rw [ih]
    simp only [FrameAccumulator.push]
    rw [← List.append_assoc, sliceFrames_join, List.append_assoc]

/-- Every frame emitted during a sequence of pushes has length
`PROTOCOL_FRAME_SIZE`. -/
theorem pushAll_frame_len {α : Type} (chunks : List (List α))
    (acc : FrameAccumulator α) :
    ∀ f ∈ (acc.pushAll chunks).1, f.length = PROTOCOL_FRAME_SIZE := by
  induction chunks generalizing acc with
  | nil => simp [FrameAccumulator.pushAll]
  | cons c cs ih =>
    intro f hf
    simp only [FrameAccumulator.pushAll, List.mem_append] at hf
    rcases hf with hf | hf
    · exact sliceFrames_frame_len _ f hf
    · exact ih _ f hf

/-- After a sequence of pushes, the retained buffer length is the total
number of samples seen so far, modulo `PROTOCOL_FRAME_SIZE`. -/
theorem pushAll_buffer_len {α : Type} (chunks : List (List α))
    (acc : FrameAccumulator α)
    (hinv : acc.inputBuffer.length < PROTOCOL_FRAME_SIZE) :
    (acc.pushAll chunks).2.inputBuffer.length
      = (acc.inputBuffer.length + (chunks.map List.length).sum)
          % PROTOCOL_FRAME_SIZE := by
  induction chunks generalizing acc with
  | nil =>
    simp only [FrameAccumulator.pushAll, List.map_nil, List.sum_nil,
      Nat.add_zero]
    exact (Nat.mod_eq_of_lt hinv).symm
  | cons c cs ih =>
    simp only [FrameAccumulator.pushAll, List.map_cons, List.sum_cons]
    have hlen : ((acc.push c).2).inputBuffer.length
        = (acc.inputBuffer.length + c.length) % PROTOCOL_FRAME_SIZE := by
      simp only [FrameAccumulator.push]
      rw [sliceFrames_rem_len, List.length_append]
    have hpos : 0 < PROTOCOL_FRAME_SIZE := by decide
    rw [ih _ (by rw [hlen]; exact Nat.mod_lt _ hpos), hlen]
    simp only [PROTOCOL_FRAME_SIZE]
    omega

/-- A list of lists whose members all have length `k` flattens to a list
of length `k` times the number of members. -/
theorem flatten_length_const {α : Type} (l : List (List α)) (k : Nat)
    (h : ∀ f ∈ l, f.length = k) : l.flatten.length = k * l.length := by
  induction l with
  | nil => simp
  | cons f fs ih =>
    simp only [List.flatten_cons, List.length_append, List.length_cons]
    rw [h f (List.mem_cons_self f fs),
      ih (fun g hg => h g (List.mem_cons_of_mem f hg))]
    ring

/-- After a sequence of pushes, the total number of emitted frames is the
total sample count (initial buffer plus all chunks) divided by
`PROTOCOL_FRAME_SIZE`. -/
theorem pushAll_count {α : Type} (chunks : List (List α))
    (acc : FrameAccumulator α)
    (hinv : acc.inputBuffer.length < PROTOCOL_FRAME_SIZE) :
    (acc.pushAll chunks).1.length
      = (acc.inputBuffer.length + (chunks.map List.length).sum)
          / PROTOCOL_FRAME_SIZE := by
  have hb := pushAll_buffer_len chunks acc hinv
  have hlen : (acc.pushAll chunks).1.flatten.length
        + (acc.pushAll chunks).2.inputBuffer.length
      = acc.inputBuffer.length + (chunks.map List.length).sum := by
    have hc := congrArg List.length (pushAll_join chunks acc)
    simpa [List.length_append, List.length_flatten] using hc
  have hfl : (acc.pushAll chunks).1.flatten.length
      = PROTOCOL_FRAME_SIZE * (acc.pushAll chunks).1.length :=
    flatten_length_const _ _ (pushAll_frame_len chunks acc)
  simp only [PROTOCOL_FRAME_SIZE] at *
  omega

/-- C1: for every sequence of pushes into a fresh FrameAccumulator, the
concatenation of all emitted complete frames plus the retained
InputBuffer equals the concatenation of all pushed samples (no sample
duplicated or dropped); and, pushing chunks of sizes
[100, 500, 1000, 1920, 2000, 3000, 5000] (sum 13520) emits exactly 7
frames and retains exactly 80 samples. -/
theorem frameAccumulator_conservation :
    (∀ (α : Type) (chunks : List (List α)),
        ((FrameAccumulator.mk ([] : List α)).pushAll chunks).1.flatten
            ++ ((FrameAccumulator.mk ([] : List α)).pushAll chunks).2.inputBuffer
          = chunks.flatten) ∧
    (∀ (α : Type) (chunks : List (List α)),
        chunks.map List.length = [100, 500, 1000, 1920, 2000, 3000, 5000] →
        ((FrameAccumulator.mk ([] : List α)).pushAll chunks).1.length = 7 ∧
        ((FrameAccumulator.mk ([] : List α)).pushAll chunks).2.inputBuffer.length
          = 80) := by
  constructor
  · intro α chunks
    simpa using pushAll_join chunks (FrameAccumulator.mk [])
  · intro α chunks h
    have hpos : (FrameAccumulator.mk ([] : List α)).inputBuffer.length
        < PROTOCOL_FRAME_SIZE := by
      simp [PROTOCOL_FRAME_SIZE]
    have hsum : (chunks.map List.length).sum = 13520 := by
      rw [h]; norm_num
    constructor
    · rw [pushAll_count chunks _ hpos]
      simp [hsum, PROTOCOL_FRAME_SIZE]
    · rw [pushAll_buffer_len chunks _ hpos]
      simp [hsum, PROTOCOL_FRAME_SIZE]

/-- The concrete chunk sequence of the buffering tests: arbitrary sample
values, sizes [100, 500, 1000, 1920, 2000, 3000, 5000]. -/
def c1Chunks : List (List Nat) :=
  [100, 500, 1000, 1920, 2000, 3000, 5000].map (fun n => List.replicate n 0)

/-- Witness for C1: the concrete test sequence satisfies the hypothesis
and yields 7 frames with 80 retained samples. -/
theorem frameAccumulator_conservation_witness :
    c1Chunks.map List.length = [100, 500, 1000, 1920, 2000, 3000, 5000] ∧
    (((FrameAccumulator.mk ([] : List Nat)).pushAll c1Chunks).1.length = 7 ∧
      ((FrameAccumulator.mk ([] : List Nat)).pushAll c1Chunks).2.inputBuffer.length
        = 80) :=
  ⟨by simp only [c1Chunks, List.map_map, List.map_cons, List.map_nil,
      Function.comp_apply, List.length_replicate],
    frameAccumulator_conservation.2 Nat c1Chunks
      (by simp only [c1Chunks, List.map_map, List.map_cons, List.map_nil,
        Function.comp_apply, List.length_replicate])⟩

/-- C2: invariant preserved by every sequence of pushes from a fresh
FrameAccumulator: every emitted frame has length exactly
`PROTOCOL_FRAME_SIZE`, and the retained InputBuffer length equals the
cumulative total of pushed samples modulo `PROTOCOL_FRAME_SIZE`, hence
always lies in [0, 1920). -/
theorem frameAccumulator_invariant :
    ∀ (α : Type) (chunks : List (List α)),
      ((FrameAccumulator.mk ([] : List α)).pushAll chunks).1.map List.length
          = List.replicate
              ((FrameAccumulator.mk ([] : List α)).pushAll chunks).1.length
              PROTOCOL_FRAME_SIZE ∧
      ((FrameAccumulator.mk ([] : List α)).pushAll chunks).2.inputBuffer.length
          = (chunks.map List.length).sum % PROTOCOL_FRAME_SIZE ∧
      ((FrameAccumulator.mk ([] : List α)).pushAll chunks).2.inputBuffer.length
          < PROTOCOL_FRAME_SIZE := by
  intro α chunks
  have hpos : (FrameAccumulator.mk ([] : List α)).inputBuffer.length
      < PROTOCOL_FRAME_SIZE := by
    simp [PROTOCOL_FRAME_SIZE]
  refine ⟨?_, ?_, ?_⟩
  · have h1 : ∀ b ∈ ((FrameAccumulator.mk ([] : List α)).pushAll chunks).1.map
        List.length, b = PROTOCOL_FRAME_SIZE := by
      intro b hb
      rcases List.mem_map.mp hb with ⟨f, hf, rfl⟩
      exact pushAll_frame_len chunks _ f hf
    have h2 := List.eq_replicate_of_mem h1
    simpa [List.length_map] using h2
  · have hb := pushAll_buffer_len chunks (FrameAccumulator.mk []) hpos
    simpa using hb
  · rw [(pushAll_buffer_len chunks (FrameAccumulator.mk []) hpos)]
    exact Nat.mod_lt _ (by decide)

/-- Modelled from the spec: the timeout modes of
`FrameAssembler.pull` / `get_audio_output`: non-blocking (timeout=0), a
finite timeout, or block-forever. -/
inductive Timeout where
  | nonBlocking
  | finite (millis : Nat)
  | blockForever
deriving DecidableEq

/-- Total number of samples buffered across the FIFO entries of an
OutputQueue. -/
def queueLen {α : Type} (q : List (List α)) : Nat :=
  (q.map List.length).sum

/-- Modelled from the spec: the assembly core of `FrameAssembler.pull`
(the output path of `get_audio_output`, which is not under `src/`).
Consumes exactly `n` samples from the FIFO head entries, splitting the
final contributing entry and retaining its remainder at the head; when
an entry is consumed exactly it is removed; returns `none` when fewer
than `n` samples are buffered in total. -/
def takeFromQueue {α : Type} : List (List α) → Nat → Option (List α × List (List α))
  | q, 0 => some ([], q)
  | [], _ + 1 => none
  | c :: rest, m + 1 =>
    if m + 1 < c.length then
      some (c.take (m + 1), c.drop (m + 1) :: rest)
    else if m + 1 = c.length then
      some (c, rest)
    else
      match takeFromQueue rest (m + 1 - c.length) with
      | some (out, q) => some (c ++ out, q)
      | none => none

/-- When `takeFromQueue` succeeds, the output has length exactly `n` and,
prepended to the remaining queue contents, reconstitutes the original
queue contents: nothing is reordered, duplicated or dropped. -/
theorem takeFromQueue_spec {α : Type} :
    ∀ (q : List (List α)) (n : Nat) (out : List α) (q₂ : List (List α)),
      takeFromQueue q n = some (out, q₂) →
      out.length = n ∧ out ++ q₂.flatten = q.flatten := by
  intro q
  induction q with
  | nil =>
    intro n out q₂ h
    cases n with
    | zero =>
      simp only [takeFromQueue, Option.some.injEq, Prod.mk.injEq] at h
      obtain ⟨h1, h2⟩ := h
      subst h1; subst h2
      simp
    | succ m => simp [takeFromQueue] at h
  | cons c rest ih =>
    intro n out q₂ h
    cases n with
    | zero =>
      simp only [takeFromQueue, Option.some.injEq, Prod.mk.injEq] at h
      obtain ⟨h1, h2⟩ := h
      subst h1; subst h2
      simp
    | succ m =>
      simp only [takeFromQueue] at h
      by_cases hlt : m + 1 < c.length
      · rw [if_pos hlt] at h
        simp only [Option.some.injEq, Prod.mk.injEq] at h
        obtain ⟨h1, h2⟩ := h
        subst h1; subst h2
        constructor
        · exact List.length_take_of_le (Nat.le_of_lt hlt)
        · simp only [List.flatten_cons]
          rw [← List.append_assoc, List.take_append_drop]
      · rw [if_neg hlt] at h
        by_cases heq : m + 1 = c.length
        · rw [if_pos heq] at h
          simp only [Option.some.injEq, Prod.mk.injEq] at h
          obtain ⟨h1, h2⟩ := h
          subst h1; subst h2
          exact ⟨heq.symm, rfl⟩
        · rw [if_neg heq] at h
          cases hrec : takeFromQueue rest (m + 1 - c.length) with
          | none => rw [hrec] at h; simp at h
          | some p =>
            obtain ⟨o, q₃⟩ := p
            rw [hrec] at h
            simp only [Option.some.injEq, Prod.mk.injEq] at h
            obtain ⟨h1, h2⟩ := h
            subst h1; subst h2
            obtain ⟨hl, hj⟩ := ih (m + 1 - c.length) o q₃ hrec
            constructor
            · rw [List.length_append, hl]
              omega
            · simp only [List.flatten_cons, List.append_assoc, hj]

/-- `takeFromQueue` fails exactly when the queue holds fewer than `n`
samples in total. -/
theorem takeFromQueue_none_iff {α : Type} :
    ∀ (q : List (List α)) (n : Nat),
      takeFromQueue q n = none ↔ queueLen q < n := by
  intro q
  induction q with
  | nil =>
    intro n
    cases n with
    | zero => simp [takeFromQueue, queueLen]
    | succ m => simp [takeFromQueue, queueLen]
  | cons c rest ih =>
    intro n
    cases n with
    | zero => simp [takeFromQueue]
    | succ m =>
      simp only [takeFromQueue, queueLen, List.map_cons, List.sum_cons]
      by_cases hlt : m + 1 < c.length
      · rw [if_pos hlt]
        simp only [queueLen] at *
        constructor
        · intro h; simp at h
        · intro h; omega
      · rw [if_neg hlt]
        by_cases heq : m + 1 = c.length
        · rw [if_pos heq]
          constructor
          · intro h; simp at h
          · intro h; omega
        · rw [if_neg heq]
          cases hrec : takeFromQueue rest (m + 1 - c.length) with
          | none =>
            have hlen := (ih (m + 1 - c.length)).mp hrec
            simp only [hrec]
            simp only [queueLen] at hlen ⊢
            constructor
            · intro _; omega
            · intro _; trivial
          | some p =>
            obtain ⟨o, q₃⟩ := p
            simp only [hrec]
            constructor
            · intro h; simp at h
            · intro h
              exfalso
              have h2 : queueLen rest < m + 1 - c.length := by
                simp only [queueLen] at h ⊢
                omega
              rw [(ih (m + 1 - c.length)).mpr h2] at hrec
              simp at hrec

/-- Modelled from the spec: the `FrameAssembler` output-path component:
a fixed output granularity `requested_size` (`output_buffer_size`,
configured at construction) and the OutputQueue, an ordered FIFO of
inbound audio chunks in network-arrival order. -/
structure FrameAssembler (α : Type) where
  requested_size : Nat
  queue : List (List α)

/-- Modelled from the spec: `FrameAssembler.pull`.  If enough buffered
samples exist across the FIFO head entries, assembles exactly
`requested_size` samples and returns immediately in every timeout mode.
If insufficient, the pull waits for inbound data up to `timeout`; in this
sequential model no inbound data arrives during the call, so the
insufficient case yields `none` — the immediate non-blocking return, the
timeout expiry, or the end-of-stream signal. -/
def FrameAssembler.pull {α : Type} (st : FrameAssembler α)
    ( timeout : Timeout) : Option (List α) × FrameAssembler α :=
  match takeFromQueue st.queue st.requested_size with
  | some (out, q) => (some out, { st with queue := q })
  | none => (none, st)

/-- C3: in every timeout mode, `pull` (`get_audio_output`) either returns
a sample sequence of length exactly `requested_size` or returns `none`;
it never returns a non-none sequence shorter or longer than
`requested_size`. -/
theorem frameAssembler_pull_exact :
    ∀ (α : Type) (st : FrameAssembler α) ( timeout : Timeout)
      (out : List α) (st₂ : FrameAssembler α),
      st.pull timeout = (some out, st₂) → out.length = st.requested_size := by
  intro α st t out st₂ h
  unfold FrameAssembler.pull at h
  cases hq : takeFromQueue st.queue st.requested_size with
  | none =>
    rw [hq] at h
    simp at h
  | some p =>
    obtain ⟨o, q₂⟩ := p
    rw [hq] at h
    simp only [Prod.mk.injEq, Option.some.injEq] at h
    obtain ⟨h1, _⟩ := h
    subst h1
    exact (takeFromQueue_spec st.queue st.requested_size o q₂ hq).1

/-- Witness for C3: a concrete pull returning two of the three buffered
samples. -/
theorem frameAssembler_pull_exact_witness :
    ([1, 2] : List Nat).length
      = (FrameAssembler.mk 2 [[1, 2, 3]] : FrameAssembler Nat).requested_size :=
  frameAssembler_pull_exact Nat (FrameAssembler.mk 2 [[1, 2, 3]])
    Timeout.nonBlocking [1, 2] (FrameAssembler.mk 2 [[3]]) rfl

/-- The FrameAssembler of the output-buffering test: requested size 960,
after five inbound pushes of 480 samples each. -/
def c4Assembler : FrameAssembler Nat :=
  FrameAssembler.mk 960 (List.replicate 5 (List.replicate 480 0))

set_option maxRecDepth 100000 in
/-- C4: with requested_size 960 and five inbound 480-sample chunks, the
first and second non-blocking pulls each return exactly 960 samples and
the third non-blocking pull returns none. -/
theorem frameAssembler_five_pushes :
    ((c4Assembler.pull Timeout.nonBlocking).1.map List.length = some 960) ∧
    (((c4Assembler.pull Timeout.nonBlocking).2.pull
        Timeout.nonBlocking).1.map List.length = some 960) ∧
    ((((c4Assembler.pull Timeout.nonBlocking).2.pull
        Timeout.nonBlocking).2.pull Timeout.nonBlocking).1 = none) := by
  refine ⟨?_, ?_, ?_⟩ <;> decide

/-- C5: `pull` with non-blocking timeout returns `none` immediately (state
unchanged) whenever the buffered samples are insufficient; and in every
timeout mode, if sufficient samples are buffered, `pull` assembles and
returns exactly `requested_size` samples immediately — with the same
result in every mode, the consumed samples taken off the FIFO head in
order — rather than waiting. -/
theorem frameAssembler_timeout_semantics :
    ∀ (α : Type) (st : FrameAssembler α),
      (queueLen st.queue < st.requested_size →
        st.pull Timeout.nonBlocking = (none, st)) ∧
      (st.requested_size ≤ queueLen st.queue →
        ∀ t : Timeout, ∃ out q,
          st.pull t = (some out, FrameAssembler.mk st.requested_size q) ∧
          st.pull t = st.pull Timeout.nonBlocking ∧
          out.length = st.requested_size ∧
          out ++ q.flatten = st.queue.flatten) := by
  intro α st
  constructor
  · intro hlt
    unfold FrameAssembler.pull
    rw [(takeFromQueue_none_iff st.queue st.requested_size).mpr hlt]
  · intro hge t
    cases hq : takeFromQueue st.queue st.requested_size with
    | none =>
      have := (takeFromQueue_none_iff st.queue st.requested_size).mp hq
      omega
    | some p =>
      obtain ⟨o, q₂⟩ := p
      obtain ⟨hl, hj⟩ := takeFromQueue_spec st.queue st.requested_size o q₂ hq
      refine ⟨o, q₂, ?_, ?_, hl, hj⟩
      · unfold FrameAssembler.pull
        rw [hq]
      · unfold FrameAssembler.pull
        rw [hq]

/-- Witness for C5: a pull on an underfilled assembler returns none with
the state unchanged, and a block-forever pull on a sufficiently filled
assembler returns immediately with exactly the requested samples. -/
theorem frameAssembler_timeout_semantics_witness :
    ((FrameAssembler.mk 3 [[1, 2]] : FrameAssembler Nat).pull
        Timeout.nonBlocking = (none, FrameAssembler.mk 3 [[1, 2]])) ∧
    (∃ out q, (FrameAssembler.mk 2 [[1, 2, 3]] : FrameAssembler Nat).pull
          Timeout.blockForever = (some out, FrameAssembler.mk 2 q) ∧
        (FrameAssembler.mk 2 [[1, 2, 3]] : FrameAssembler Nat).pull
            Timeout.blockForever
          = (FrameAssembler.mk 2 [[1, 2, 3]] : FrameAssembler Nat).pull
              Timeout.nonBlocking ∧
        out.length = 2 ∧
        out ++ q.flatten = ([[1, 2, 3]] : List (List Nat)).flatten) :=
  ⟨(frameAssembler_timeout_semantics Nat (FrameAssembler.mk 3 [[1, 2]])).1
      (by decide),
    (frameAssembler_timeout_semantics Nat (FrameAssembler.mk 2 [[1, 2, 3]])).2
      (by decide) Timeout.blockForever⟩

/-- Repeated non-blocking pulls, collecting the returned buffers until
the first `none`. -/
def FrameAssembler.pullN {α : Type} (st : FrameAssembler α) :
    Nat → List (List α) × FrameAssembler α
  | 0 => ([], st)
  | k + 1 =>
    match st.pull Timeout.nonBlocking with
    | (some out, st₂) =>
      let r := st₂.pullN k
      (out :: r.1, r.2)
    | (none, st₂) => ([], st₂)

/-- A single successful pull preserves the queue contents: what is
returned plus what remains equals what was buffered, in order. -/
theorem pull_flatten {α : Type} (st : FrameAssembler α) ( t : Timeout) :
    ((st.pull t).1.getD [] ++ (st.pull t).2.queue.flatten)
      = st.queue.flatten := by
  unfold FrameAssembler.pull
  cases hq : takeFromQueue st.queue st.requested_size with
  | none => simp
  | some p =>
    obtain ⟨o, q₂⟩ := p
    simp only [Option.getD_some]
    exact (takeFromQueue_spec st.queue st.requested_size o q₂ hq).2

/-- C6: the OutputQueue is consumed strictly FIFO: across any number of
successive pulls, the returned buffers concatenated in order followed by
the remaining queue contents equal the originally buffered contents —
network-arrival order preserved, nothing reordered or duplicated; and
partial consumption of the head entry truncates it in place (the
remainder of the split head is retained at the head, the tail entries
untouched). -/
theorem frameAssembler_fifo :
    (∀ (α : Type) (st : FrameAssembler α) (k : Nat),
        (st.pullN k).1.flatten ++ (st.pullN k).2.queue.flatten
          = st.queue.flatten) ∧
    (∀ (α : Type) (c : List α) (rest : List (List α)) (n : Nat),
        0 < n → n < c.length →
        takeFromQueue (c :: rest) n = some (c.take n, c.drop n :: rest)) := by
  constructor
  · intro α st k
    induction k generalizing st with
    | zero => simp [FrameAssembler.pullN]
    | succ k ih =>
      have hp := pull_flatten st Timeout.nonBlocking
      unfold FrameAssembler.pullN
      cases hq : st.pull Timeout.nonBlocking with
      | mk o st₂ =>
        cases o with
        | none =>
          simp only [List.flatten_nil, List.nil_append]
          rw [hq] at hp
          simpa using hp
        | some out =>
          simp only [List.flatten_cons, List.append_assoc]
          rw [ih st₂]
          rw [hq] at hp
          simpa using hp
  · intro α c rest n hpos hlt
    cases n with
    | zero => omega
    | succ m =>
      simp only [takeFromQueue]
      rw [if_pos hlt]

/-- Witness for C6: consuming one of two samples from the head entry
truncates the head entry in place. -/
theorem frameAssembler_fifo_witness :
    takeFromQueue ([[5, 6], [7]] : List (List Nat)) 1
      = some ([5], [[6], [7]]) :=
  frameAssembler_fifo.2 Nat [5, 6] [[7]] 1 (by decide) (by decide)

/-- Modelled from the spec: the connection lifecycle states
Disconnected, Connecting, Connected, Closing, and the terminal Failed
state. -/
inductive ConnectionState where
  | Disconnected
  | Connecting
  | Connected
  | Closing
  | Failed
deriving DecidableEq

/-- Modelled from the spec: the error surfaced synchronously by a failed
`connect` (handshake or transport failure). -/
inductive ConnectionError where
  | handshakeFailure
deriving DecidableEq

/-- Modelled from the spec: the observable state of the client facade —
connection state, the FrameAccumulator's retained input buffer, the
queue of complete frames awaiting transmission, the FrameAssembler's
inbound OutputQueue, and the configured output granularity. -/
structure MoshiClient (α : Type) where
  connState : ConnectionState
  input_audio_buffer : List α
  audio_input_queue : List (List α)
  audio_output_queue : List (List α)
  output_buffer_size : Nat

/-- Modelled from the spec: `is_connected` reports whether the session is
in the `Connected` state. -/
def MoshiClient.is_connected {α : Type} (c : MoshiClient α) : Bool :=
  match c.connState with
  | ConnectionState.Connected => true
  | _ => false

/-- Modelled from the spec: `disconnect` transitions the session to
`Disconnected`, is a no-op when there is no session, and never raises,
even on an already-broken session; the `Except` result makes the
no-raise guarantee explicit. -/
def MoshiClient.disconnect {α : Type} (c : MoshiClient α) :
    Except ConnectionError (MoshiClient α) :=
  Except.ok { c with connState := ConnectionState.Disconnected }

/-- C7: `disconnect` is idempotent and total: from any client state —
never connected, connected, or already broken (`Failed`) — it returns
successfully (never raises) with the observable state `Disconnected`,
and calling it again returns the very same state with no error. -/
theorem disconnect_idempotent :
    ∀ (α : Type) (c : MoshiClient α), ∃ c₂ : MoshiClient α,
      c.disconnect = Except.ok c₂ ∧
      c₂.connState = ConnectionState.Disconnected ∧
      c₂.disconnect = Except.ok c₂ := by
  intro α c
  exact ⟨{ c with connState := ConnectionState.Disconnected }, rfl, rfl, rfl⟩

/-- Modelled from the spec: the events that drive ConnectionState
transitions — the start, success and failure of `connect`, server-side
close and its completion, an unrecoverable transport error, and a
`disconnect` call. -/
inductive SessionEvent where
  | connectStart
  | connectSuccess
  | connectFail
  | serverClose
  | closeDone
  | transportError
  | disconnectCall
deriving DecidableEq

/-- Modelled from the spec: the ConnectionState transition relation.
`Disconnected → Connecting → Connected → Closing → Disconnected`, with
`Failed` terminal and reachable from any live state on unrecoverable
transport error, and `disconnect` always landing in `Disconnected`. -/
def stepState : ConnectionState → SessionEvent → Option ConnectionState
  | ConnectionState.Disconnected, SessionEvent.connectStart =>
      some ConnectionState.Connecting
  | ConnectionState.Connecting, SessionEvent.connectSuccess =>
      some ConnectionState.Connected
  | ConnectionState.Connecting, SessionEvent.connectFail =>
      some ConnectionState.Failed
  | ConnectionState.Connected, SessionEvent.serverClose =>
      some ConnectionState.Closing
  | ConnectionState.Closing, SessionEvent.closeDone =>
      some ConnectionState.Disconnected
  | ConnectionState.Connecting, SessionEvent.transportError =>
      some ConnectionState.Failed
  | ConnectionState.Connected, SessionEvent.transportError =>
      some ConnectionState.Failed
  | ConnectionState.Closing, SessionEvent.transportError =>
      some ConnectionState.Failed
  | _, SessionEvent.disconnectCall => some ConnectionState.Disconnected
  | _, _ => none

/-- Run a sequence of session events from a starting state; `none` when
an event fires in a state where it is not enabled. -/
def runEvents (s : ConnectionState) : List SessionEvent → Option ConnectionState
  | [] => some s
  | e :: es =>
    match stepState s e with
    | some s₂ => runEvents s₂ es
    | none => none

/-- The only transition into `Connected` is a successful connect. -/
theorem stepState_to_connected (s : ConnectionState) (e : SessionEvent)
    (h : stepState s e = some ConnectionState.Connected) :
    e = SessionEvent.connectSuccess := by
  cases s <;> cases e <;> simp_all [stepState]

/-- The only transition into `Connecting` is the start of a connect. -/
theorem stepState_to_connecting (s : ConnectionState) (e : SessionEvent)
    (h : stepState s e = some ConnectionState.Connecting) :
    e = SessionEvent.connectStart := by
  cases s <;> cases e <;> simp_all [stepState]

/-- Reaching `Connected` from a non-Connected state requires a
`connectSuccess` event somewhere in the trace. -/
theorem runEvents_connected_mem :
    ∀ (evs : List SessionEvent) (s₀ s : ConnectionState),
      s₀ ≠ ConnectionState.Connected → runEvents s₀ evs = some s →
      s = ConnectionState.Connected → SessionEvent.connectSuccess ∈ evs := by
  intro evs
  induction evs with
  | nil =>
    intro s₀ s hne hrun hs
    simp only [runEvents, Option.some.injEq] at hrun
    exact absurd (hrun.trans hs) hne
  | cons e es ih =>
    intro s₀ s hne hrun hs
    simp only [runEvents] at hrun
    cases hstep : stepState s₀ e with
    | none => rw [hstep] at hrun; simp at hrun
    | some s₁ =>
      rw [hstep] at hrun
      by_cases he : e = SessionEvent.connectSuccess
      · rw [he]; exact List.mem_cons_self _ _
      · have h1 : s₁ ≠ ConnectionState.Connected := by
          intro hc
          exact he (stepState_to_connected s₀ e (hc ▸ hstep))
        exact List.mem_cons_of_mem _ (ih s₁ s h1 hrun hs)

/-- A trace that never starts a new connect never passes through
`Connecting` again. -/
theorem runEvents_no_connecting :
    ∀ (evs : List SessionEvent) (s₀ s : ConnectionState),
      s₀ ≠ ConnectionState.Connecting →
      SessionEvent.connectStart ∉ evs →
      runEvents s₀ evs = some s → s ≠ ConnectionState.Connecting := by
  intro evs
  induction evs with
  | nil =>
    intro s₀ s hne _ hrun
    simp only [runEvents, Option.some.injEq] at hrun
    exact hrun ▸ hne
  | cons e es ih =>
    intro s₀ s hne hmem hrun
    simp only [runEvents] at hrun
    cases hstep : stepState s₀ e with
    | none => rw [hstep] at hrun; simp at hrun
    | some s₁ =>
      rw [hstep] at hrun
      have h1 : s₁ ≠ ConnectionState.Connecting := by
        intro hc
        exact hmem (by
          rw [← stepState_to_connecting s₀ e (hc ▸ hstep)] at *
          exact List.mem_cons_self _ _)
      exact ih s₁ s h1 (fun hm => hmem (List.mem_cons_of_mem _ hm)) hrun

/-- C8: state-machine invariants of the connection lifecycle: the state
is never `Connected` before a successful connect (every trace from
`Disconnected` ending in `Connected` contains a `connectSuccess`); a
`disconnect` call always lands in `Disconnected` (so after `disconnect`
returns, the state is within {Disconnected, Failed}); and transitions
are monotonic per connection instance: once `Connected`, a trace that
does not start a new connection never revisits `Connecting`. -/
theorem connectionState_machine :
    (∀ (evs : List SessionEvent) (s : ConnectionState),
        runEvents ConnectionState.Disconnected evs = some s →
        s = ConnectionState.Connected →
        SessionEvent.connectSuccess ∈ evs) ∧
    (∀ s : ConnectionState,
        stepState s SessionEvent.disconnectCall
          = some ConnectionState.Disconnected) ∧
    (∀ (evs : List SessionEvent) (s : ConnectionState),
        runEvents ConnectionState.Connected evs = some s →
        SessionEvent.connectStart ∉ evs →
        s ≠ ConnectionState.Connecting) := by
  refine ⟨?_, ?_, ?_⟩
  · intro evs s hrun hs
    exact runEvents_connected_mem evs ConnectionState.Disconnected s
      (by simp) hrun hs
  · intro s
    cases s <;> rfl
  · intro evs s hrun hmem
    exact runEvents_no_connecting evs ConnectionState.Connected s
      (by simp) hmem hrun

/-- Witness for C8: the trace connectStart, connectSuccess reaches
`Connected` and indeed contains `connectSuccess`; and from `Connected`,
a disconnect call lands in `Disconnected`, which is not `Connecting`. -/
theorem connectionState_machine_witness :
    SessionEvent.connectSuccess
        ∈ [SessionEvent.connectStart, SessionEvent.connectSuccess] ∧
    ConnectionState.Disconnected ≠ ConnectionState.Connecting :=
  ⟨connectionState_machine.1
      [SessionEvent.connectStart, SessionEvent.connectSuccess]
      ConnectionState.Connected rfl rfl,
    connectionState_machine.2.2 [SessionEvent.disconnectCall]
      ConnectionState.Disconnected rfl (by decide)⟩

/-- `queueLen` agrees with the length of the flattened queue contents. -/
theorem queueLen_eq_flatten_length {α : Type} (q : List (List α)) :
    queueLen q = q.flatten.length := by
  simp [queueLen, List.length_flatten]

/-- A successful `takeFromQueue` removes exactly `n` samples from the
total buffered count. -/
theorem takeFromQueue_queueLen {α : Type} (q : List (List α)) (n : Nat)
    (out : List α) (q₂ : List (List α))
    (h : takeFromQueue q n = some (out, q₂)) :
    n + queueLen q₂ = queueLen q := by
  obtain ⟨hl, hj⟩ := takeFromQueue_spec q n out q₂ h
  have := congrArg List.length hj
  simp only [List.length_append, hl] at this
  rw [queueLen_eq_flatten_length, queueLen_eq_flatten_length]
  exact this

/-- Modelled from the spec: `get_audio_output(timeout)` — the FrameAssembler
pull surfaced on the client facade: assemble exactly `output_buffer_size`
samples from the head of the inbound `audio_output_queue`, retaining the
split remainder at the head; when the buffered samples are insufficient,
the call yields `none` (immediately for the non-blocking mode; after the
wait, in this sequential model, for the others). -/
def MoshiClient.get_audio_output {α : Type} (c : MoshiClient α)
    ( timeout : Timeout) : Option (List α) × MoshiClient α :=
  match takeFromQueue c.audio_output_queue c.output_buffer_size with
  | some (out, q) => (some out, { c with audio_output_queue := q })
  | none => (none, c)

/-- Modelled from the spec: `get_audio_output()` with the timeout argument
omitted, as called by the drain loop inside the real-time audio output
callback of `simple_moshi_client.py`; the spec's real-time constraint
(the playback callback must never block unboundedly) fixes the default
to the non-blocking mode (`timeout=0`). -/
def MoshiClient.get_audio_output_default {α : Type} (c : MoshiClient α) :
    Option (List α) × MoshiClient α :=
  c.get_audio_output Timeout.nonBlocking

/-- The drain loop of the audio output callback: repeatedly call
`get_audio_output()` (no timeout argument), collecting the returned
buffers, until it returns `none`; `fuel` bounds the number of
iterations. -/
def MoshiClient.drainLoop {α : Type} (c : MoshiClient α) :
    Nat → List (List α) × MoshiClient α
  | 0 => ([], c)
  | fuel + 1 =>
    match c.get_audio_output_default with
    | (some out, c₂) =>
      let r := c₂.drainLoop fuel
      (out :: r.1, r.2)
    | (none, c₂) => ([], c₂)

/-- With enough fuel, the drain loop returns exactly
`queueLen / output_buffer_size` buffers and then hits `none`. -/
theorem drainLoop_spec {α : Type} :
    ∀ (fuel : Nat) (c : MoshiClient α),
      0 < c.output_buffer_size →
      queueLen c.audio_output_queue / c.output_buffer_size < fuel →
      (c.drainLoop fuel).1.length
          = queueLen c.audio_output_queue / c.output_buffer_size ∧
      (c.drainLoop fuel).2.get_audio_output_default.1 = none := by
  intro fuel
  induction fuel with
  | zero =>
    intro c _ hfuel
    exact absurd hfuel (Nat.not_lt_zero _)
  | succ fuel ih =>
    intro c hpos hfuel
    unfold MoshiClient.drainLoop
    cases hq : takeFromQueue c.audio_output_queue c.output_buffer_size with
    | none =>
      have hlt := (takeFromQueue_none_iff _ _).mp hq
      have hdiv : queueLen c.audio_output_queue / c.output_buffer_size = 0 :=
        Nat.div_eq_of_lt hlt
      have hget : c.get_audio_output_default = (none, c) := by
        unfold MoshiClient.get_audio_output_default MoshiClient.get_audio_output
        rw [hq]
      rw [hget]
      exact ⟨by simpa using hdiv.symm, by rw [hget]⟩
    | some p =>
      obtain ⟨o, q₂⟩ := p
      have hget : c.get_audio_output_default
          = (some o, { c with audio_output_queue := q₂ }) := by
        unfold MoshiClient.get_audio_output_default MoshiClient.get_audio_output
        rw [hq]
      have hql := takeFromQueue_queueLen _ _ _ _ hq
      have hle : c.output_buffer_size ≤ queueLen c.audio_output_queue := by
        omega
      have hdiv : queueLen c.audio_output_queue / c.output_buffer_size
          = queueLen q₂ / c.output_buffer_size + 1 := by
        rw [Nat.div_eq_sub_div hpos hle]
        congr 1
        congr 1
        omega
      have hih := ih { c with audio_output_queue := q₂ } hpos (by
        simp only
        omega)
      rw [hget]
      simp only [List.length_cons]
      constructor
      · rw [hih.1]
        simp only
        omega
      · exact hih.2

/-- C9: `get_audio_output()` with no timeout argument is non-blocking:
when the buffered samples are insufficient for `output_buffer_size` it
returns `none` immediately with the client unchanged; consequently a
drain loop calling it repeatedly terminates — after exactly
`queueLen / output_buffer_size` successful reads, the next call returns
`none` and the loop exits. -/
theorem get_audio_output_default_nonblocking :
    ∀ (α : Type) (c : MoshiClient α),
      (queueLen c.audio_output_queue < c.output_buffer_size →
        c.get_audio_output_default = (none, c)) ∧
      (0 < c.output_buffer_size →
        (c.drainLoop
            (queueLen c.audio_output_queue / c.output_buffer_size + 1)).1.length
          = queueLen c.audio_output_queue / c.output_buffer_size ∧
        (c.drainLoop
            (queueLen c.audio_output_queue / c.output_buffer_size
              + 1)).2.get_audio_output_default.1 = none) := by
  intro α c
  constructor
  · intro hlt
    unfold MoshiClient.get_audio_output_default MoshiClient.get_audio_output
    rw [(takeFromQueue_none_iff _ _).mpr hlt]
  · intro hpos
    exact drainLoop_spec _ c hpos (Nat.lt_succ_self _)

/-- Witness for C9: an underfilled client yields an immediate `none`, and
a client holding 3 samples with output size 2 drains exactly one buffer
before hitting `none`. -/
theorem get_audio_output_default_nonblocking_witness :
    ((MoshiClient.mk ConnectionState.Disconnected [] [] [[1]] 2
          : MoshiClient Nat).get_audio_output_default
        = (none, MoshiClient.mk ConnectionState.Disconnected [] [] [[1]] 2)) ∧
    (((MoshiClient.mk ConnectionState.Disconnected [] [] [[1, 2], [3]] 2
          : MoshiClient Nat).drainLoop 2).1.length = 1 ∧
      ((MoshiClient.mk ConnectionState.Disconnected [] [] [[1, 2], [3]] 2
          : MoshiClient Nat).drainLoop 2).2.get_audio_output_default.1
        = none) :=
  ⟨(get_audio_output_default_nonblocking Nat
      (MoshiClient.mk ConnectionState.Disconnected [] [] [[1]] 2)).1
      (by decide),
    (get_audio_output_default_nonblocking Nat
      (MoshiClient.mk ConnectionState.Disconnected [] [] [[1, 2], [3]] 2)).2
      (by decide)⟩

/-- Modelled from the spec: `add_audio_input(samples)` — the
FrameAccumulator push surfaced on the client facade.  The offline test
scripts stub `is_connected` to return true before exercising buffering
("temporarily bypass connection check for testing"), documenting that
the call checks the connection first: when the client is not connected
it neither buffers nor enqueues anything; when connected it appends the
samples to the retained input buffer, slices off complete
`PROTOCOL_FRAME_SIZE` frames and appends them to the
`audio_input_queue` for transmission. -/
def MoshiClient.add_audio_input {α : Type} (c : MoshiClient α)
    (samples : List α) : MoshiClient α :=
  if c.is_connected then
    { c with
      input_audio_buffer := (sliceFrames (c.input_audio_buffer ++ samples)).2,
      audio_input_queue :=
        c.audio_input_queue
          ++ (sliceFrames (c.input_audio_buffer ++ samples)).1 }
  else c

/-- C10: when `is_connected()` is false, `add_audio_input` leaves the
client — in particular its input frame queue — unchanged: no frames are
enqueued for transmission; whereas when connected, the emitted complete
frames are appended to the input frame queue (their number given by the
framing arithmetic). -/
theorem add_audio_input_requires_connection :
    ∀ (α : Type) (c : MoshiClient α) (samples : List α),
      (c.is_connected = false → c.add_audio_input samples = c) ∧
      (c.is_connected = true →
        (c.add_audio_input samples).audio_input_queue
            = c.audio_input_queue
                ++ (sliceFrames (c.input_audio_buffer ++ samples)).1 ∧
        (c.add_audio_input samples).audio_input_queue.length
            = c.audio_input_queue.length
                + (c.input_audio_buffer ++ samples).length
                    / PROTOCOL_FRAME_SIZE) := by
  intro α c samples
  constructor
  · intro hfalse
    unfold MoshiClient.add_audio_input
    rw [hfalse]
    simp
  · intro htrue
    unfold MoshiClient.add_audio_input
    rw [htrue, if_pos rfl]
    constructor
    · rfl
    · simp only
      rw [List.length_append, sliceFrames_count]

/-- Witness for C10: a disconnected client ignores pushed samples
entirely, while a connected client appends the (here zero) emitted
frames to its input frame queue. -/
theorem add_audio_input_requires_connection_witness :
    ((MoshiClient.mk ConnectionState.Disconnected [] [] [] 960
        : MoshiClient Nat).add_audio_input [0]
      = MoshiClient.mk ConnectionState.Disconnected [] [] [] 960) ∧
    (((MoshiClient.mk ConnectionState.Connected [] [[9]] [] 960
          : MoshiClient Nat).add_audio_input [0]).audio_input_queue
        = [[9]] ++ (sliceFrames (([] : List Nat) ++ [0])).1 ∧
      ((MoshiClient.mk ConnectionState.Connected [] [[9]] [] 960
          : MoshiClient Nat).add_audio_input [0]).audio_input_queue.length
        = ([[9]] : List (List Nat)).length
            + (([] : List Nat) ++ [0]).length / PROTOCOL_FRAME_SIZE) :=
  ⟨(add_audio_input_requires_connection Nat
      (MoshiClient.mk ConnectionState.Disconnected [] [] [] 960) [0]).1 rfl,
    (add_audio_input_requires_connection Nat
      (MoshiClient.mk ConnectionState.Connected [] [[9]] [] 960) [0]).2 rfl⟩
